import Mathlib

/-!
Verification of the markdown-to-OpenAPI conversion pipeline in `build-spec.ts`.

The development shallowly embeds the script's data model and functions:
mdast document nodes become an inductive `MdNode`, JS runtime values used for
parameter defaults become `JsValue`, fallible code returns `Except String`,
and JS string operations are modelled over the character list `String.data`
(the inputs at issue are plain ASCII, for which the two views agree).
-/

/-- Warning kinds: the string union 'deprecated' | 'experimental'. -/
inductive Warning where
  | deprecated
  | experimental
deriving DecidableEq

/-- JS runtime values as they occur for parameter default values and parsed
response examples: strings, booleans, numbers (integers or NaN from parseInt),
arrays, and undefined. -/
inductive JsValue where
  | str (s : String)
  | bool (b : Bool)
  | int (n : Int)
  | nan
  | list (xs : List JsValue)
  | undef

/-- JS truthiness of a value ('', false, 0, NaN and undefined are falsy). -/
def jsTruthy : JsValue → Bool
  | .str s => s != ""
  | .bool b => b
  | .int n => n != 0
  | .nan => false
  | .list _ => true
  | .undef => false

/-- Truthiness of a possibly-undefined value (none models undefined). -/
def jsTruthyOpt : Option JsValue → Bool
  | none => false
  | some v => jsTruthy v

/-- A possibly-undefined value as a JsValue (undefined entries inside arrays). -/
def jsOfOpt : Option JsValue → JsValue
  | none => .undef
  | some v => v

/-- mdast document nodes, restricted to the node types the script inspects. -/
inductive MdNode where
  | heading (depth : Nat) (children : List MdNode)
  | paragraph (children : List MdNode)
  | text (value : String)
  | inlineCode (value : String)
  | strong (children : List MdNode)
  | code (value : String)
  | list (children : List MdNode)
  | listItem (children : List MdNode)
  | thematicBreak

/-- The JS `.children` property (node types without children give `[]`). -/
def childrenOf : MdNode → List MdNode
  | .heading _ cs => cs
  | .paragraph cs => cs
  | .strong cs => cs
  | .list cs => cs
  | .listItem cs => cs
  | _ => []

/-- The JS `.value` property (text, inlineCode and code carry one). -/
def nodeValue : MdNode → Option String
  | .text v => some v
  | .inlineCode v => some v
  | .code v => some v
  | _ => none

/-- node.type === 'paragraph'. -/
def isParagraph : MdNode → Bool
  | .paragraph _ => true
  | _ => false

/-- Models `v.startsWith(pat)` over the character lists. -/
def jsStartsWith (v pat : String) : Bool :=
  pat.data.isPrefixOf v.data

/-- `isHeader` (build-spec.ts lines 38-45): a heading of the given depth whose
first child is text passing the content test. -/
def isHeader (node : MdNode) (level : Nat) (contentTest : String → Bool) : Bool :=
  match node with
  | .heading depth (.text v :: _) => depth == level && contentTest v
  | _ => false

/-- The text of a header's first child (only applied to nodes passing isHeader). -/
def headerText : MdNode → String
  | .heading _ (.text v :: _) => v
  | _ => ""

/-- JS object insert-or-overwrite, preserving the first insertion position,
modelling `endpointsMarkdown[path] = content` on a plain object. -/
def upsert (m : List (String × List MdNode)) (k : String) (v : List MdNode) :
    List (String × List MdNode) :=
  match m with
  | [] => [(k, v)]
  | (k', v') :: rest => if k' = k then (k, v) :: rest else (k', v') :: upsert rest k v

/-- The Segmenter loop (build-spec.ts lines 47-63).  On each depth-2 `/api/`
heading the slice accumulated since the previous boundary is flushed under the
previous path; non-boundary nodes before the first boundary are fatal.  Note
that, as in the source, the loop ends at the end of input without flushing the
content accumulated for the current path. -/
def segmentLoop : List MdNode → List (String × List MdNode) → Option String → List MdNode →
    Except String (List (String × List MdNode))
  | [], m, _, _ => .ok m
  | node :: rest, m, currentPath, currentContent =>
    if isHeader node 2 (fun v => jsStartsWith v "/api/") then
      match currentPath with
      | some p => segmentLoop rest (upsert m p currentContent) (some (headerText node)) []
      | none => segmentLoop rest m (some (headerText node)) currentContent
    else
      match currentPath with
      | none => .error "Couldn't find first endpoint header"
      | some p => segmentLoop rest m (some p) (currentContent ++ [node])

/-- The Segmenter: builds the endpoint-path-to-node-slice mapping from the
node sequence following the start sentinel. -/
def segmentEndpoints (nodes : List MdNode) : Except String (List (String × List MdNode)) :=
  segmentLoop nodes [] none []

/-- One-indexed source position (line, column) as carried by mdast nodes. -/
structure Pos where
  line : Nat
  column : Nat

/-- A node's recorded position range; `stop` models the `end` field (the
position one past the last character of the node). -/
structure PosRange where
  start : Pos
  stop : Pos

/-- Models `markdownText.split('\n')`. -/
def splitLinesAux : List Char → List Char → List String
  | [], acc => [String.mk acc.reverse]
  | '\n' :: rest, acc => String.mk acc.reverse :: splitLinesAux rest []
  | c :: rest, acc => splitLinesAux rest (c :: acc)

/-- Split a string at newline characters, JS String.split('\n') semantics. -/
def splitLines (s : String) : List String :=
  splitLinesAux s.data []

/-- Models `line.slice(i)` (substring from index i). -/
def jsSliceFrom (s : String) (i : Nat) : String :=
  String.mk (s.data.drop i)

/-- Models `line.slice(0, i)` (substring up to index i). -/
def jsSliceTo (s : String) (i : Nat) : String :=
  String.mk (s.data.take i)

/-- Models `parts.join(sep)` (empty array joins to the empty string). -/
def joinSep (sep : String) : List String → String
  | [] => ""
  | [x] => x
  | x :: rest => x ++ sep ++ joinSep sep rest

/-- `getRawMarkdown` (build-spec.ts lines 102-122): re-slices the original
source text from the first node's start position to the last node's end
position, line by line.  The function only reads each node's position, so the
node list is passed as its list of position ranges. -/
def getRawMarkdown (markdownText : String) (nodes : List PosRange) : String :=
  match nodes with
  | [] => ""
  | first :: rest =>
    let start := first.start
    let stop := (rest.getLastD first).stop
    let markdownLines := splitLines markdownText
    let relevantLines := (markdownLines.drop (start.line - 1)).take (stop.line - (start.line - 1))
    joinSep "\n"
      (jsSliceFrom (relevantLines.headD "") (start.column - 1) ::
        ((relevantLines.drop 1).dropLast ++
          (if relevantLines.length > 1
            then [jsSliceTo (relevantLines.getLastD "") (stop.column - 1)]
            else [])))

/-- JS whitespace class \s (ASCII members; the unicode space classes do not
occur in the inputs at issue). -/
def jsSpace (c : Char) : Bool :=
  c = ' ' || c = '\t' || c = '\n' || c = '\r' || c = '\x0b' || c = '\x0c'

/-- JS word-character class \w = [A-Za-z0-9_]. -/
def isWordChar (c : Char) : Bool :=
  ('a' ≤ c && c ≤ 'z') || ('A' ≤ c && c ≤ 'Z') || ('0' ≤ c && c ≤ '9') || c = '_'

/-- Base-10 value of a digit string. -/
def digitsVal (cs : List Char) : Int :=
  cs.foldl (fun acc c => acc * 10 + ((c.toNat : Int) - 48)) 0

/-- Models `parseInt(v, 10)`: skip leading whitespace, optional sign, then the
longest digit prefix; NaN when no digits follow. -/
def jsParseInt10 (v : String) : JsValue :=
  let cs := v.data.dropWhile jsSpace
  let signAndRest : Int × List Char :=
    match cs with
    | '-' :: t => (-1, t)
    | '+' :: t => (1, t)
    | _ => (1, cs)
  let digits := signAndRest.2.takeWhile Char.isDigit
  if digits = [] then .nan else .int (signAndRest.1 * digitsVal digits)

/-- `parseValue` (build-spec.ts lines 276-282).  The source's array/arg-series
branch computes `value.slice(1, -1).split(/[, ]/)` but does not return it, so
for those types (and for unrecognized types) the function yields undefined. -/
def parseValue (type : String) (value : Option String) : Option JsValue :=
  match value with
  | none => none
  | some v =>
    if type = "string" then some (.str v)
    else if type = "bool" then some (.bool (v == "true"))
    else if type = "int" || type = "uint" || type = "int64" then some (jsParseInt10 v)
    else none

/-- Split a character list at every comma or space, JS split(/[, ]/) semantics
(adjacent separators produce empty tokens). -/
def splitCommaSpace : List Char → List Char → List (List Char)
  | [], acc => [acc.reverse]
  | c :: rest, acc =>
    if c = ',' || c = ' ' then acc.reverse :: splitCommaSpace rest []
    else splitCommaSpace rest (c :: acc)

/-- Spec-side definition of the array/series default parse: the bracket-delimited,
comma-or-space-separated token list, i.e. what `value.slice(1, -1).split(/[, ]/)`
evaluates to before the source discards it. -/
def specArraySeriesDefault (v : String) : JsValue :=
  .list ((splitCommaSpace (v.data.drop 1).dropLast []).map (fun t => .str (String.mk t)))

/-- Expect a literal character sequence as a prefix, returning the remainder. -/
def dropLit : List Char → List Char → Option (List Char)
  | [], t => some t
  | _ :: _, [] => none
  | l :: ls, c :: cs => if c = l then dropLit ls cs else none

/-- The literal "Default: " of the argument-definition regex. -/
def defaultLit : List Char := "Default: ".data

/-- The literal "Required: " of the argument-definition regex. -/
def requiredLit : List Char := "Required: ".data

/-- Candidate (capture, remainder) splits for the lazy group in
`(.*?)\.`, in the order a backtracking engine tries them: the capture grows
from the empty string, stopping at each '.' of the input. -/
def dotSplits : List Char → List Char → List (List Char × List Char)
  | _, [] => []
  | acc, '.' :: rest => (acc.reverse, rest) :: dotSplits ('.' :: acc) rest
  | acc, c :: rest => dotSplits (c :: acc) rest

/-- Match `(\w+)\.` against the whole of u: the greedy word capture is the
maximal word-character run (a shorter run would have to be followed by a word
character, never by '.'), and the dot must end the input (the anchor follows). -/
def reqCapture (u : List Char) : Option (List Char) :=
  let w := u.takeWhile isWordChar
  if w.isEmpty then none
  else if u.drop w.length = ['.'] then some w else none

/-- Match `(?:\sRequired: (\w+)\.)?$` at t, the greedy optional trying the
present branch first; returns the Required capture on success. -/
def matchOpt (t : List Char) : Option (Option (List Char)) :=
  let present : Option (List Char) :=
    match t with
    | c :: rest =>
      if jsSpace c then
        match dropLit requiredLit rest with
        | some u => reqCapture u
        | none => none
      else none
    | [] => none
  match present with
  | some w => some (some w)
  | none => if t.isEmpty then some none else none

/-- Candidate (capture, remainder) pairs for one `\sDefault: (.*?)\.` block
starting at t, in backtracking order. -/
def starCands (t : List Char) : List (List Char × List Char) :=
  match t with
  | c :: u =>
    if jsSpace c then
      match dropLit defaultLit u with
      | some m => dotSplits [] m
      | none => []
    else []
  | [] => []

/-- Run the continuation on each candidate in order, keeping the first success. -/
def starTryWith
    (f : List Char → Option (List Char) → Option (Option (List Char) × Option (List Char))) :
    List (List Char × List Char) → Option (Option (List Char) × Option (List Char))
  | [] => none
  | (v, rest) :: more =>
    match f rest (some v) with
    | some r => some r
    | none => starTryWith f more

/-- Match `(?:\sDefault: (.*?)\.)*(?:\sRequired: (\w+)\.)?$` at t with full
backtracking: the greedy star first tries to consume one more Default block
(each block's lazy capture enumerated by dotSplits), recursing on the
remainder; once no extension succeeds, the optional Required group and the
anchor are matched at t.  Captures are (last Default capture, Required
capture); each block consumes at least one character, so the input length
bounds the needed fuel. -/
def matchStar : Nat → List Char → Option (List Char) →
    Option (Option (List Char) × Option (List Char))
  | 0 => fun _ _ => none
  | fuel + 1 => fun t lastDef =>
    match starTryWith (matchStar fuel) (starCands t) with
    | some r => some r
    | none => (matchOpt t).map (fun w => (lastDef, w))

/-- Enumerate the lazy description group `(.*?\.?)`: at each length (taken is
the reversed consumed prefix) the greedy `\.?` first consumes a '.', then
matches empty, before the lazy group grows by one character; the first overall
success wins.  Returns (description, last Default capture, Required capture). -/
def descLoop (fuel : Nat) : List Char → List Char →
    Option (List Char × Option (List Char) × Option (List Char))
  | taken, [] =>
    match matchStar fuel [] none with
    | some (d, w) => some (taken.reverse, d, w)
    | none => none
  | taken, c :: rest =>
    let withDot : Option (List Char × Option (List Char) × Option (List Char)) :=
      if c = '.' then
        match matchStar fuel rest none with
        | some (d, w) => some ((c :: taken).reverse, d, w)
        | none => none
      else none
    match withDot with
    | some x => some x
    | none =>
      match matchStar fuel (c :: rest) none with
      | some (d, w) => some (taken.reverse, d, w)
      | none => descLoop fuel (c :: taken) rest

/-- The literal "]: " of the argument-definition regex. -/
def closeLit : List Char := "]: ".data

/-- The anchored definition regex of build-spec.ts line 208,
`^\[(\w+)\]: (.*?\.?)(?:\sDefault: (.*?)\.)*(?:\sRequired: (\w+)\.)?$` with the
s flag, with JS backtracking semantics; returns the four capture groups
(type, description, last Default capture, Required capture) of the match. -/
def matchDefinition (s : List Char) :
    Option (List Char × List Char × Option (List Char) × Option (List Char)) :=
  match s with
  | '[' :: s1 =>
    let ty := s1.takeWhile isWordChar
    if ty.isEmpty then none
    else
      match dropLit closeLit (s1.drop ty.length) with
      | some r =>
        match descLoop (r.length + 1) [] r with
        | some (d, dv, rq) => some (ty, d, dv, rq)
        | none => none
      | none => none
  | _ => none

/-- `isIpfsParamType` (build-spec.ts lines 264-274). -/
def isIpfsParamType (type : String) : Bool :=
  ["string", "bool", "int", "uint", "int64", "array", "arg-series"].contains type

/-- Models `s.includes(pat)` (substring containment). -/
def jsIncludes (s pat : String) : Bool :=
  (List.range (s.data.length + 1)).any (fun i => pat.data.isPrefixOf (s.data.drop i))

/-- Models `s.toLowerCase()` (the inputs at issue are ASCII). -/
def jsToLower (s : String) : String :=
  String.mk (s.data.map Char.toLower)

/-- One parsed argument of an endpoint (the element type of the parameter
list built by parseArguments); `type` is kept as the runtime string, guarded
by isIpfsParamType at construction. -/
structure RawParam where
  name : String
  description : String
  type : String
  defaultValue : Option JsValue
  required : Bool
  warning : Option Warning

/-- Lines 205-232 of parseArguments: match the assembled definition string
against the regex, check the type token, and build the parameter record from
the captures (default value parsed per type, required iff the Required capture
is exactly 'yes', warning from a case-insensitive search of the description). -/
def parseDefinition (name : String) (fullDefinition : String) : Except String RawParam :=
  match matchDefinition fullDefinition.data with
  | none => .error ("Unexpected format for arg: " ++ fullDefinition)
  | some (ty, d, dv, rq) =>
    let type := String.mk ty
    if isIpfsParamType type then
      let description := String.mk d
      .ok { name := name
            description := description
            type := type
            defaultValue := parseValue type (dv.map String.mk)
            required := rq == some "yes".data
            warning :=
              if jsIncludes (jsToLower description) "deprecated" then some .deprecated
              else if jsIncludes (jsToLower description) "experimental" then some .experimental
              else none }
    else .error ("Unexpected type for arg: " ++ type)


/-- Models `s.trim()`. -/
def jsTrim (s : String) : String :=
  String.mk ((s.data.dropWhile jsSpace).reverse.dropWhile jsSpace).reverse

/-- Text of one strong child (build-spec.ts lines 187-195): must be text. -/
def strongText : MdNode → Except String String
  | .text v => .ok v
  | _ => .error "Unexpected type for arg strong description part"

/-- Text of one definition part (build-spec.ts lines 185-203): a strong run of
text children, or a text or inline-code part. -/
def partText : MdNode → Except String String
  | .strong cs => (cs.mapM strongText).map (joinSep "")
  | .text v => .ok v
  | .inlineCode v => .ok v
  | _ => .error "Unexpected type for arg description"

/-- Extract one argument list item (build-spec.ts lines 169-204): all children
must be paragraphs; the flattened inline parts must start with the inline-code
name token; the remaining parts are joined and trimmed into the definition
string.  (On an empty part list the source would fault reading
`argParts[0].type`; that is a fatal abort as well.) -/
def argItemDefinition (child : MdNode) : Except String (String × String) :=
  if (childrenOf child).any (fun c => ¬(isParagraph c = true)) then
    .error "Unexpected types for arg line"
  else
    match (childrenOf child).flatMap childrenOf with
    | [] => .error "No arg parts"
    | nameChild :: descriptionChildren =>
      match nameChild with
      | .inlineCode name =>
        (descriptionChildren.mapM partText).map (fun parts => (name, jsTrim (joinSep "" parts)))
      | _ => .error "Unexpected type for arg name"

/-- Distinct strings in first-occurrence order (seen holds keys already kept). -/
def dedupFirstAux : List String → List String → List String
  | [], _ => []
  | x :: xs, seen =>
    if seen.contains x then dedupFirstAux xs seen else x :: dedupFirstAux xs (x :: seen)

/-- Models `Object.values(_.groupBy(params, p => p.name))`: one group per
distinct name in first-occurrence order, each group listing its members in
list order.  (JS object key ordering would move integer-like keys first;
parameter names are non-numeric, so insertion order applies.) -/
def groupByName (ps : List RawParam) : List (List RawParam) :=
  (dedupFirstAux (ps.map (fun p => p.name)) []).map (fun n => ps.filter (fun p => p.name = n))

/-- The combined 'arg-series' parameter for one duplicate-name group
(build-spec.ts lines 241-252): indexed-label description concatenation,
truthiness-guarded list of member defaults, OR of required flags, and the
first member's warning. -/
def combineGroup : List RawParam → RawParam
  | [] =>
    { name := "", description := "", type := "arg-series", defaultValue := none,
      required := false, warning := none }
  | g0 :: rest =>
    { name := g0.name
      description := joinSep "\n\n" ((g0 :: rest).enum.map
        (fun ip => g0.name ++ toString ip.1 ++ ": " ++ ip.2.description))
      type := "arg-series"
      defaultValue :=
        if (g0 :: rest).any (fun p => jsTruthyOpt p.defaultValue) then
          some (.list ((g0 :: rest).map (fun p => jsOfOpt p.defaultValue)))
        else none
      required := (g0 :: rest).any (fun p => p.required)
      warning := g0.warning }

/-- One iteration of the duplicate merge (build-spec.ts lines 240-258): build
the combined parameter, locate the group's first member, remove all same-named
parameters and splice the combined one back in at that position.  The source's
`params.indexOf(paramGroup[0])` compares object references; the group's first
member is precisely the first element of params carrying its name (groups are
taken from the same list and references are unique), so the search is by name
here. -/
def mergeStep (params : List RawParam) (group : List RawParam) : List RawParam :=
  match group with
  | [] => params
  | g0 :: _ =>
    let combined := combineGroup group
    let firstParamIndex := params.findIdx (fun p => p.name = g0.name)
    let filtered := params.filter (fun p => ¬(p.name = combined.name))
    filtered.take firstParamIndex ++ combined :: filtered.drop firstParamIndex

/-- The duplicate-name merge (build-spec.ts lines 238-259): group by name on
the original list, keep the groups with more than one member, and fold the
merge step over them. -/
def mergeParams (ps : List RawParam) : List RawParam :=
  ((groupByName ps).filter (fun g => g.length > 1)).foldl mergeStep ps

/-- `parseArguments` (build-spec.ts lines 154-262): no node means no
arguments; a paragraph must be the no-arguments sentinel; otherwise the node
must be a list, whose items are parsed into parameters and then run through
the duplicate-name merge. -/
def parseArguments (endpoint : String) (node : Option MdNode) :
    Except String (List RawParam) :=
  match node with
  | none => .ok []
  | some (.paragraph cs) =>
    match cs with
    | .text v :: _ =>
      if v = "This endpoint takes no arguments." then .ok []
      else .error ("Unexpected argument paragraph for " ++ endpoint)
    | _ => .error ("Unexpected argument paragraph for " ++ endpoint)
  | some (.list children) =>
    (children.mapM (fun child =>
      (argItemDefinition child).bind (fun nd => parseDefinition nd.1 nd.2))).map mergeParams
  | some _ => .error ("Unexpected argument node type for " ++ endpoint)

/-- `parseIntroNodes` (build-spec.ts lines 124-152): all intro nodes must be
paragraphs; an optional leading warning block `::: warning KIND`, closed by a
paragraph whose first child is the text `:::`, sets the warning; the
paragraphs after the close are sliced verbatim into the description.  The
raw-markdown extraction reads node source positions, which the node model
does not carry, so it is passed in as `raw`. -/
def parseIntroNodes (raw : List MdNode → String) (endpoint : String) (nodes : List MdNode) :
    Except String (String × Option Warning) :=
  if nodes.any (fun n => ¬(isParagraph n = true)) then
    .error ("Intro nodes for " ++ endpoint ++ " are not all paragraphs")
  else
    match nodes.findIdx? (fun n =>
        match childrenOf n with
        | .text v :: _ => v == ":::"
        | _ => false) with
    | some i =>
      match (nodes.head?.bind (fun p => (childrenOf p).head?)).bind nodeValue with
      | some "::: warning DEPRECATED" =>
        .ok (raw (nodes.drop (i + 1)), some .deprecated)
      | some "::: warning EXPERIMENTAL" =>
        .ok (raw (nodes.drop (i + 1)), some .experimental)
      | _ => .error ("Unexpected intro warning for " ++ endpoint)
    | none => .ok (raw nodes, none)

/-- The fixed introductory sentinel paragraph text of a response region. -/
def responseIntroText : String :=
  "On success, the call to this endpoint will return with 200 and the following body:"

/-- The unstructured-text-response sentinel code-block content. -/
def textResponseSentinel : String :=
  "This endpoint returns a `text/plain` response body."

/-- The response-intro check of build-spec.ts lines 291-295: a paragraph whose
first child is text equal to the sentinel. -/
def isResponseIntro (n : MdNode) : Bool :=
  match n with
  | .paragraph (.text v :: _) => v == responseIntroText
  | _ => false

/-- The diagnostic for an unparseable response example; it appends the raw
code-block content. -/
def jsonFailMsg (endpoint content : String) : String :=
  "Failed to parse JSON response example for " ++ endpoint ++ ": " ++ content

/-- `parseResponseInfo` (build-spec.ts lines 284-316): exactly two nodes, the
sentinel intro paragraph then a code block; the text-response sentinel content
means no example, otherwise the content must JSON-parse.  JSON.parse is an
external capability and is passed in as `jsonParse`, with none modelling a
parse throw. -/
def parseResponseInfo (jsonParse : String → Option JsValue) (endpoint : String)
    (nodes : List MdNode) : Except String (Option JsValue) :=
  match nodes with
  | [introNode, codeNode] =>
    if isResponseIntro introNode then
      match codeNode with
      | .code v =>
        if v = textResponseSentinel then .ok none
        else
          match jsonParse v with
          | some j => .ok (some j)
          | none => .error (jsonFailMsg endpoint v)
      | _ => .error ("Unusual response info code block for " ++ endpoint)
    else .error ("Unexpected response info intro for " ++ endpoint)
  | _ => .error ("Unexpected number of response info nodes for " ++ endpoint)

/-- findIndex over nodes for a header of the given level with exact text. -/
def findIdxHeader (nodes : List MdNode) (level : Nat) (txt : String) : Option Nat :=
  nodes.findIdx? (fun node => isHeader node level (fun v => v == txt))

/-- The documentation base URL of the script. -/
def docsBaseUrl : String := "https://docs.ipfs.tech/reference/kubo/rpc/"

/-- Models `endpoint.slice(1).replace(/\//g, '-')`. -/
def docsAnchor (endpoint : String) : String :=
  String.mk ((endpoint.data.drop 1).map (fun c => if c = '/' then '-' else c))

/-- One extracted endpoint record (the EndpointData interface). -/
structure EndpointData where
  path : String
  description : String
  warning : Option Warning
  parameters : List RawParam
  requestBodyDescription : Option String
  responseBodyExample : Option JsValue
  docsUrl : String

/-- The per-endpoint extractor (build-spec.ts lines 318-364): locate the
Arguments header, parse the intro, locate Request Body and Response, bound the
argument region (the count is a JS number and may be negative, hence Int),
parse the arguments, slice the request-body text, locate the cURL terminator,
and parse the response region. -/
def endpointDataFn (raw : List MdNode → String) (jsonParse : String → Option JsValue)
    (endpoint : String) (nodes : List MdNode) : Except String EndpointData :=
  match findIdxHeader nodes 3 "Arguments" with
  | none => .error ("No arguments header found for " ++ endpoint)
  | some argumentsHeaderIndex =>
    match parseIntroNodes raw endpoint (nodes.take argumentsHeaderIndex) with
    | .error e => .error e
    | .ok dw =>
      let requestBodyIndex := findIdxHeader nodes 3 "Request Body"
      match findIdxHeader nodes 3 "Response" with
      | none => .error ("No response header found for " ++ endpoint)
      | some responseIndex =>
        let endOfArgumentsIndex := requestBodyIndex.getD responseIndex
        let argumentNodesCount : Int :=
          (endOfArgumentsIndex : Int) - (argumentsHeaderIndex : Int) - 1
        if argumentNodesCount > 1 then
          .error ("Unexpected argument node length for " ++ endpoint)
        else
          let argumentNode :=
            if argumentNodesCount = 0 then none else nodes[argumentsHeaderIndex + 1]?
          match parseArguments endpoint argumentNode with
          | .error e => .error e
          | .ok parameters =>
            let requestBodyNodes :=
              match requestBodyIndex with
              | some rb => (nodes.drop (rb + 1)).take (responseIndex - (rb + 1))
              | none => []
            let requestBodyDescription :=
              if jsTrim (raw requestBodyNodes) = "" then none
              else some (jsTrim (raw requestBodyNodes))
            match findIdxHeader nodes 3 "cURL Example" with
            | none => .error ("No end header found for " ++ endpoint)
            | some endIndex =>
              match parseResponseInfo jsonParse endpoint
                  ((nodes.drop (responseIndex + 1)).take (endIndex - (responseIndex + 1))) with
              | .error e => .error e
              | .ok responseBodyExample =>
                .ok { path := endpoint
                      description := dw.1
                      warning := dw.2
                      parameters := parameters
                      requestBodyDescription := requestBodyDescription
                      responseBodyExample := responseBodyExample
                      docsUrl := docsBaseUrl ++ "#" ++ docsAnchor endpoint }

/-- A produced JSON-schema fragment: a simple primitive type, or the
array-of-string shape. -/
inductive SchemaShape where
  | simple (ty : String)
  | arrayOfString
deriving DecidableEq

/-- `getJsonSchemaForIpfsType` (build-spec.ts lines 371-392), taken over the
runtime string as JS does: the array kinds map to array-of-string, the
primitive kinds go through the literal object mapping, and any other token
throws. -/
def getJsonSchemaForIpfsType (type : String) : Except String SchemaShape :=
  if type = "array" ∨ type = "arg-series" then .ok .arrayOfString
  else
    match [("bool", "boolean"), ("string", "string"), ("int", "integer"),
           ("uint", "integer"), ("int64", "integer")].lookup type with
    | some jsonSchemaType => .ok (.simple jsonSchemaType)
    | none => .error ("Could not convert parameter type: " ++ type)

/-- Replace the first parameter named n by c and drop the later ones; this is
what one merge-step iteration does to the working list. -/
def replaceN (n : String) (c : RawParam) : List RawParam → List RawParam
  | [] => []
  | p :: rest =>
    if p.name = n then c :: rest.filter (fun q => ¬(q.name = n))
    else p :: replaceN n c rest

/-- replaceN for each name in order, with each name's combined parameter
taken from the original list ps. -/
def applyAll (ps : List RawParam) : List String → List RawParam → List RawParam
  | [], cur => cur
  | n :: ns, cur =>
    applyAll ps ns (replaceN n (combineGroup (ps.filter (fun p => p.name = n))) cur)

/-- Keep the first occurrence of n and drop the later ones (the name-level
shadow of replaceN). -/
def keepFirstOnly (n : String) : List String → List String
  | [] => []
  | x :: xs =>
    if x = n then x :: xs.filter (fun y => ¬(y = n)) else x :: keepFirstOnly n xs

/-- keepFirstOnly for each name in order (the name-level shadow of applyAll). -/
def foldKeep : List String → List String → List String
  | [], l => l
  | n :: ns, l => foldKeep ns (keepFirstOnly n l)

/-- A duplicate-free two-parameter list, first element. -/
def pLo : RawParam :=
  { name := "lo", description := "a", type := "string", defaultValue := none,
    required := false, warning := none }

/-- A duplicate-free two-parameter list, second element. -/
def pHi : RawParam :=
  { name := "hi", description := "b", type := "bool", defaultValue := some (.bool true),
    required := true, warning := none }

/-- First member of a duplicate group whose defaults are all falsy (boolean
false), as produced from a definition with `Default: false.`. -/
def pDupA : RawParam :=
  { name := "a", description := "d1", type := "bool", defaultValue := some (.bool false),
    required := false, warning := none }

/-- Second member of the same duplicate group, also with default false. -/
def pDupB : RawParam :=
  { name := "a", description := "d2", type := "bool", defaultValue := some (.bool false),
    required := true, warning := none }

/-- The parameter produced from the definition string
"[bool]: Deprecated and EXPERIMENTAL." (used to exhibit warning precedence). -/
def pBoth : RawParam :=
  { name := "arg", description := "Deprecated and EXPERIMENTAL.", type := "bool",
    defaultValue := none, required := false, warning := some .deprecated }

/-- The names that occur more than once in ps, in first-occurrence order
(the names of the groups the merge folds over). -/
def dupNamesOf (ps : List RawParam) : List String :=
  (dedupFirstAux (ps.map (fun p => p.name)) []).filter
    (fun n => (ps.filter (fun p => p.name = n)).length > 1)

/-- First member of a duplicate group carrying a truthy default value. -/
def pSer1 : RawParam :=
  { name := "arg", description := "first", type := "string",
    defaultValue := some (.str "v"), required := false, warning := some .experimental }

/-- Second member of that duplicate group, without a default value. -/
def pSer2 : RawParam :=
  { name := "arg", description := "second", type := "string",
    defaultValue := none, required := true, warning := none }

/-- An endpoint slice with two nodes between the Arguments heading and the
Response heading (used to exhibit the more-than-one-argument-node error). -/
def c6Nodes : List MdNode :=
  [MdNode.heading 3 [.text "Arguments"], .paragraph [.text "p1"], .paragraph [.text "p2"],
   MdNode.heading 3 [.text "Response"]]

/-! Theorems. -/

/-- C1: contrary to the claim, the Segmenter never flushes the slice following
the last boundary heading: an input with two boundary headings yields a mapping
with a single entry, and the final endpoint's slice is lost. -/
theorem c1_segmenter_drops_final_slice :
    segmentEndpoints
      [MdNode.heading 2 [.text "/api/v0/a"], .paragraph [.text "pa"],
       MdNode.heading 2 [.text "/api/v0/b"], .paragraph [.text "pb"]] =
      .ok [("/api/v0/a", [.paragraph [.text "pa"]])] := by
  rfl

/-- C2: the parsed token list for an array/arg-series default is dropped by the
source (a missing return), so parseValue yields no value there, while the
spec's token-list parse of the same inputs is the nonempty list of tokens. -/
theorem c2_array_default_value_dropped :
    parseValue "array" (some "[a,b c]") = none ∧
    parseValue "arg-series" (some "[x]") = none ∧
    specArraySeriesDefault "[a,b c]" = .list [.str "a", .str "b", .str "c"] := by
  refine ⟨rfl, rfl, rfl⟩

/-- C3: contrary to the claim, a single-line span is sliced only from its start
column and is not bounded by the end column: for source text "abcdef" and one
node spanning line 1, columns 2 to 4, the slicer returns "bcdef" rather than
the exact substring "bc".  Empty input does return the empty string. -/
theorem c3_single_line_slice_ignores_end_column :
    getRawMarkdown "abcdef" [⟨⟨1, 2⟩, ⟨1, 4⟩⟩] = "bcdef" ∧
    getRawMarkdown "abcdef" [] = "" ∧
    "bcdef" ≠ "bc" := by
  refine ⟨rfl, rfl, by decide⟩

theorem matchStar_nonspace (f : Nat) (c : Char) (t : List Char) (d : Option (List Char))
    (hc : jsSpace c = false) : matchStar (f + 1) (c :: t) d = none := by
  simp [matchStar, starCands, starTryWith, matchOpt, hc]

theorem reqCapture_word_dot (w : List Char) (hne : w ≠ [])
    (hw : ∀ c ∈ w, isWordChar c = true) : reqCapture (w ++ ['.']) = some w := by
  have hne' : w.isEmpty = false := by
    cases w with
    | nil => exact absurd rfl hne
    | cons a l => rfl
  have htw : (w ++ ['.']).takeWhile isWordChar = w := by
    rw [List.takeWhile_append_of_pos hw]
    simp [List.takeWhile_cons, show isWordChar '.' = false from rfl]
  unfold reqCapture
  rw [htw]
  simp [hne', List.drop_left]

theorem matchOpt_required (w : List Char) (hne : w ≠ [])
    (hw : ∀ c ∈ w, isWordChar c = true) :
    matchOpt (' ' :: 'R' :: 'e' :: 'q' :: 'u' :: 'i' :: 'r' :: 'e' :: 'd' :: ':' :: ' ' ::
      (w ++ ['.'])) = some (some w) := by
  have hdl : dropLit requiredLit ('R' :: 'e' :: 'q' :: 'u' :: 'i' :: 'r' :: 'e' :: 'd' :: ':' ::
      ' ' :: (w ++ ['.'])) = some (w ++ ['.']) := rfl
  simp [matchOpt, hdl, reqCapture_word_dot w hne hw, show jsSpace ' ' = true from rfl]

theorem matchStar_required (f : Nat) (w : List Char) (hne : w ≠ [])
    (hw : ∀ c ∈ w, isWordChar c = true) :
    matchStar (f + 1) (' ' :: 'R' :: 'e' :: 'q' :: 'u' :: 'i' :: 'r' :: 'e' :: 'd' :: ':' ::
      ' ' :: (w ++ ['.'])) none = some (none, some w) := by
  have hcands : starCands (' ' :: 'R' :: 'e' :: 'q' :: 'u' :: 'i' :: 'r' :: 'e' :: 'd' :: ':' ::
      ' ' :: (w ++ ['.'])) = [] := rfl
  simp [matchStar, hcands, starTryWith, matchOpt_required w hne hw]

theorem descLoop_required (f : Nat) (w : List Char) (hne : w ≠ [])
    (hw : ∀ c ∈ w, isWordChar c = true) :
    descLoop (f + 1) [] ('D' :: '.' :: ' ' :: 'R' :: 'e' :: 'q' :: 'u' :: 'i' :: 'r' :: 'e' ::
      'd' :: ':' :: ' ' :: (w ++ ['.'])) = some (['D', '.'], none, some w) := by
  have h1 : matchStar (f + 1) ('D' :: '.' :: ' ' :: 'R' :: 'e' :: 'q' :: 'u' :: 'i' :: 'r' ::
      'e' :: 'd' :: ':' :: ' ' :: (w ++ ['.'])) none = none :=
    matchStar_nonspace f 'D' _ none rfl
  have h2 := matchStar_required f w hne hw
  rw [descLoop, h1]
  rw [descLoop]
  simp [h2]

theorem takeWhile_stops (p : Char → Bool) (l₁ l₂ : List Char) (b : Char)
    (hp : ∀ a ∈ l₁, p a = true) (hb : p b = false) :
    (l₁ ++ b :: l₂).takeWhile p = l₁ := by
  rw [List.takeWhile_append_of_pos hp]
  simp [List.takeWhile_cons, hb]

/-- C10: a definition whose trailing clause is 'Required: W.' for any word W
other than 'yes' parses without error with required = false, and only the
exact word 'yes' yields required = true. -/
theorem c10_required_word_only_yes (W : String) (h1 : W.data ≠ [])
    (h2 : ∀ c ∈ W.data, isWordChar c = true) (h3 : W ≠ "yes") :
    parseDefinition "arg" ("[string]: D. Required: " ++ W ++ ".") =
      .ok { name := "arg", description := "D.", type := "string",
            defaultValue := none, required := false, warning := none } ∧
    parseDefinition "arg" "[string]: D. Required: yes." =
      .ok { name := "arg", description := "D.", type := "string",
            defaultValue := none, required := true, warning := none } := by
  refine ⟨?_, by rfl⟩
  have hdata : ("[string]: D. Required: " ++ W ++ ".").data
      = '[' :: ('s' :: 't' :: 'r' :: 'i' :: 'n' :: 'g' :: ']' :: ':' :: ' ' ::
        'D' :: '.' :: ' ' :: 'R' :: 'e' :: 'q' :: 'u' :: 'i' :: 'r' :: 'e' :: 'd' :: ':' :: ' ' ::
        (W.data ++ ['.'])) := by
    simp [String.data_append]
  have hsplit : ('s' :: 't' :: 'r' :: 'i' :: 'n' :: 'g' :: ']' :: ':' :: ' ' ::
        'D' :: '.' :: ' ' :: 'R' :: 'e' :: 'q' :: 'u' :: 'i' :: 'r' :: 'e' :: 'd' :: ':' :: ' ' ::
        (W.data ++ ['.'])) = "string".data ++ (']' :: (':' :: ' ' ::
        'D' :: '.' :: ' ' :: 'R' :: 'e' :: 'q' :: 'u' :: 'i' :: 'r' :: 'e' :: 'd' :: ':' :: ' ' ::
        (W.data ++ ['.']))) := rfl
  have htw : ('s' :: 't' :: 'r' :: 'i' :: 'n' :: 'g' :: ']' :: ':' :: ' ' ::
        'D' :: '.' :: ' ' :: 'R' :: 'e' :: 'q' :: 'u' :: 'i' :: 'r' :: 'e' :: 'd' :: ':' :: ' ' ::
        (W.data ++ ['.'])).takeWhile isWordChar = "string".data := by
    rw [hsplit]
    exact takeWhile_stops isWordChar _ _ ']' (by decide) (by decide)
  have hdrop : ('s' :: 't' :: 'r' :: 'i' :: 'n' :: 'g' :: ']' :: ':' :: ' ' ::
        'D' :: '.' :: ' ' :: 'R' :: 'e' :: 'q' :: 'u' :: 'i' :: 'r' :: 'e' :: 'd' :: ':' :: ' ' ::
        (W.data ++ ['.'])).drop ("string".data).length = (']' :: ':' :: ' ' ::
        'D' :: '.' :: ' ' :: 'R' :: 'e' :: 'q' :: 'u' :: 'i' :: 'r' :: 'e' :: 'd' :: ':' :: ' ' ::
        (W.data ++ ['.'])) := rfl
  have hdl : dropLit closeLit (']' :: ':' :: ' ' ::
        'D' :: '.' :: ' ' :: 'R' :: 'e' :: 'q' :: 'u' :: 'i' :: 'r' :: 'e' :: 'd' :: ':' :: ' ' ::
        (W.data ++ ['.'])) = some ('D' :: '.' :: ' ' :: 'R' :: 'e' :: 'q' :: 'u' :: 'i' :: 'r' ::
        'e' :: 'd' :: ':' :: ' ' :: (W.data ++ ['.'])) := rfl
  have hdesc := descLoop_required
    (('D' :: '.' :: ' ' :: 'R' :: 'e' :: 'q' :: 'u' :: 'i' :: 'r' :: 'e' :: 'd' :: ':' :: ' ' ::
      (W.data ++ ['.'])).length) W.data h1 h2
  have hbeq : (some W.data == some "yes".data) = false := by
    simp only [beq_eq_false_iff_ne, ne_eq, Option.some.injEq]
    intro hc
    apply h3
    cases W with
    | mk d => exact congrArg String.mk hc
  have hmd : matchDefinition ('[' :: ('s' :: 't' :: 'r' :: 'i' :: 'n' :: 'g' :: ']' :: ':' :: ' ' ::
        'D' :: '.' :: ' ' :: 'R' :: 'e' :: 'q' :: 'u' :: 'i' :: 'r' :: 'e' :: 'd' :: ':' :: ' ' ::
        (W.data ++ ['.']))) = some ("string".data, ['D', '.'], none, some W.data) := by
    simp only [matchDefinition, htw, hdrop, hdl, hdesc]
    simp
  unfold parseDefinition
  rw [hdata, hmd]
  simp [isIpfsParamType, hbeq, parseValue]
  decide

/-- Closed instance for C10: the word 'no' is nonempty, consists of word
characters, differs from 'yes', and the parser accepts it with required =
false while 'yes' gives required = true. -/
theorem c10_required_word_only_yes_witness :
    ("no".data ≠ [] ∧ (∀ c ∈ "no".data, isWordChar c = true) ∧ "no" ≠ "yes") ∧
    (parseDefinition "arg" ("[string]: D. Required: " ++ "no" ++ ".") =
      .ok { name := "arg", description := "D.", type := "string",
            defaultValue := none, required := false, warning := none } ∧
     parseDefinition "arg" "[string]: D. Required: yes." =
      .ok { name := "arg", description := "D.", type := "string",
            defaultValue := none, required := true, warning := none }) :=
  ⟨⟨by decide, by decide, by decide⟩,
    c10_required_word_only_yes "no" (by decide) (by decide) (by decide)⟩

/-- C9: for every successfully parsed argument, the warning is derived solely
from the description by case-insensitive substring search, 'deprecated' taking
precedence over 'experimental'. -/
theorem c9_warning_from_description (name s : String) (p : RawParam)
    (h : parseDefinition name s = .ok p) :
    p.warning =
      (if jsIncludes (jsToLower p.description) "deprecated" then some Warning.deprecated
       else if jsIncludes (jsToLower p.description) "experimental" then some Warning.experimental
       else none) := by
  unfold parseDefinition at h
  cases hm : matchDefinition s.data with
  | none =>
    rw [hm] at h
    exact Except.noConfusion h
  | some q =>
    obtain ⟨ty, d, dv, rq⟩ := q
    rw [hm] at h
    dsimp only at h
    by_cases ht : isIpfsParamType (String.mk ty) = true
    · rw [if_pos ht] at h
      cases h
      rfl
    · rw [if_neg ht] at h
      exact Except.noConfusion h

/-- Closed instance for C9: a description containing both markers yields the
'deprecated' warning (precedence), as the warning rule states. -/
theorem c9_warning_from_description_witness :
    parseDefinition "arg" "[bool]: Deprecated and EXPERIMENTAL." = .ok pBoth ∧
    pBoth.warning =
      (if jsIncludes (jsToLower pBoth.description) "deprecated" then some Warning.deprecated
       else if jsIncludes (jsToLower pBoth.description) "experimental" then some Warning.experimental
       else none) :=
  ⟨rfl, c9_warning_from_description "arg" "[bool]: Deprecated and EXPERIMENTAL." pBoth rfl⟩


/-- C8: the type mapping sends each recognized parameter type to exactly one
schema primitive (bool to boolean, string to string, the three integer kinds
to integer, array and arg-series to array-of-string) and errors on any token
outside this closed set. -/
theorem c8_type_mapping_closure :
    getJsonSchemaForIpfsType "bool" = .ok (.simple "boolean") ∧
    getJsonSchemaForIpfsType "string" = .ok (.simple "string") ∧
    getJsonSchemaForIpfsType "int" = .ok (.simple "integer") ∧
    getJsonSchemaForIpfsType "uint" = .ok (.simple "integer") ∧
    getJsonSchemaForIpfsType "int64" = .ok (.simple "integer") ∧
    getJsonSchemaForIpfsType "array" = .ok .arrayOfString ∧
    getJsonSchemaForIpfsType "arg-series" = .ok .arrayOfString ∧
    ∀ s : String, s ∉ ["string", "bool", "int", "uint", "int64", "array", "arg-series"] →
      (getJsonSchemaForIpfsType s).isOk = false := by
  refine ⟨rfl, rfl, rfl, rfl, rfl, rfl, rfl, ?_⟩
  intro s hs
  simp only [List.mem_cons, List.not_mem_nil, or_false, not_or] at hs
  obtain ⟨h1, h2, h3, h4, h5, h6, h7⟩ := hs
  unfold getJsonSchemaForIpfsType
  rw [if_neg (by tauto)]
  simp [List.lookup, beq_eq_false_iff_ne.mpr h1, beq_eq_false_iff_ne.mpr h2,
    beq_eq_false_iff_ne.mpr h3, beq_eq_false_iff_ne.mpr h4, beq_eq_false_iff_ne.mpr h5,
    Except.isOk, Except.toBool]

/-- Closed instance for C8: the token 'float' is outside the recognized set
and the mapping rejects it. -/
theorem c8_type_mapping_closure_witness :
    ("float" ∉ ["string", "bool", "int", "uint", "int64", "array", "arg-series"]) ∧
    (getJsonSchemaForIpfsType "float").isOk = false :=
  ⟨by decide, c8_type_mapping_closure.2.2.2.2.2.2.2 "float" (by decide)⟩

/-- C7: in a two-node response region of sentinel paragraph plus code block,
the text-response sentinel content yields no example; any other content
parses through jsonParse, a parse failure erroring with a message carrying the
raw content; and every other node count or shape is an error. -/
theorem c7_response_region (jsonParse : String → Option JsValue) (ep : String) :
    parseResponseInfo jsonParse ep
        [.paragraph [.text responseIntroText], .code textResponseSentinel] = .ok none ∧
    (∀ v, v ≠ textResponseSentinel →
      parseResponseInfo jsonParse ep [.paragraph [.text responseIntroText], .code v] =
        (match jsonParse v with
         | some j => .ok (some j)
         | none => .error (jsonFailMsg ep v))) ∧
    (∀ v, ∃ pre, jsonFailMsg ep v = pre ++ v) ∧
    (∀ ns : List MdNode, ns.length ≠ 2 → (parseResponseInfo jsonParse ep ns).isOk = false) ∧
    (∀ a b : MdNode, isResponseIntro a = false ∨ (∀ v, b ≠ .code v) →
      (parseResponseInfo jsonParse ep [a, b]).isOk = false) := by
  refine ⟨rfl, ?_, ?_, ?_, ?_⟩
  · intro v hv
    simp only [parseResponseInfo, show isResponseIntro (.paragraph [.text responseIntroText]) =
      true from rfl, if_true, if_neg hv]
  · intro v
    exact ⟨"Failed to parse JSON response example for " ++ ep ++ ": ", rfl⟩
  · intro ns h
    match ns with
    | [] => rfl
    | [a] => rfl
    | [a, b] => simp at h
    | a :: b :: c :: t => rfl
  · intro a b hab
    rcases hab with h | h
    · simp [parseResponseInfo, h, Except.isOk, Except.toBool]
    · by_cases hi : isResponseIntro a = true
      · cases b with
        | code v => exact absurd rfl (h v)
        | heading depth cs => simp [parseResponseInfo, hi, Except.isOk, Except.toBool]
        | paragraph cs => simp [parseResponseInfo, hi, Except.isOk, Except.toBool]
        | text v => simp [parseResponseInfo, hi, Except.isOk, Except.toBool]
        | inlineCode v => simp [parseResponseInfo, hi, Except.isOk, Except.toBool]
        | strong cs => simp [parseResponseInfo, hi, Except.isOk, Except.toBool]
        | list cs => simp [parseResponseInfo, hi, Except.isOk, Except.toBool]
        | listItem cs => simp [parseResponseInfo, hi, Except.isOk, Except.toBool]
        | thematicBreak => simp [parseResponseInfo, hi, Except.isOk, Except.toBool]
      · simp [parseResponseInfo, hi, Except.isOk, Except.toBool]

/-- Closed instance for C7: a non-sentinel content goes through the parse
function (here one that fails, erroring with the content in the message), the
empty region errors, and a two-node region of wrong shapes errors. -/
theorem c7_response_region_witness :
    ("x" ≠ textResponseSentinel ∧ ([] : List MdNode).length ≠ 2 ∧
      isResponseIntro .thematicBreak = false) ∧
    parseResponseInfo (fun _ => none) "/api/v0/x"
        [.paragraph [.text responseIntroText], .code "x"] =
      .error (jsonFailMsg "/api/v0/x" "x") ∧
    (parseResponseInfo (fun _ => none) "/api/v0/x" []).isOk = false ∧
    (parseResponseInfo (fun _ => none) "/api/v0/x"
        [.thematicBreak, .thematicBreak]).isOk = false :=
  ⟨⟨by decide, by decide, rfl⟩,
    (c7_response_region (fun _ => none) "/api/v0/x").2.1 "x" (by decide),
    (c7_response_region (fun _ => none) "/api/v0/x").2.2.2.1 [] (by decide),
    (c7_response_region (fun _ => none) "/api/v0/x").2.2.2.2 .thematicBreak .thematicBreak
      (Or.inl rfl)⟩

/-- Part of C4: contrary to the claim, when every member of a duplicate group
carries a falsy default value (here boolean false), the merged parameter gets
no default value at all, although the members did have defaults. -/
theorem c4_default_truthiness_counterexample :
    (mergeParams [pDupA, pDupB]).map (fun p => p.defaultValue) = [none] ∧
    pDupA.defaultValue = some (.bool false) ∧ pDupB.defaultValue = some (.bool false) :=
  ⟨rfl, rfl, rfl⟩

theorem filter_name_eq_nil (t : List RawParam) (n : String)
    (h : n ∉ t.map (fun p => p.name)) : t.filter (fun p => p.name = n) = [] := by
  induction t with
  | nil => rfl
  | cons q t ih =>
    simp only [List.map_cons, List.mem_cons, not_or] at h
    simp only [List.filter_cons]
    rw [if_neg (by simp only [decide_eq_true_eq]; exact fun hc => h.1 hc.symm)]
    exact ih h.2

theorem filter_name_le_one (ps : List RawParam)
    (h : (ps.map (fun p => p.name)).Nodup) (n : String) :
    (ps.filter (fun p => p.name = n)).length ≤ 1 := by
  induction ps with
  | nil => simp
  | cons p t ih =>
    simp only [List.map_cons, List.nodup_cons] at h
    by_cases hp : p.name = n
    · have ht : t.filter (fun q => q.name = n) = [] := filter_name_eq_nil t n (hp ▸ h.1)
      simp [List.filter_cons, hp, ht]
    · simp [List.filter_cons, hp, ih h.2]

/-- C5: on a parameter list without duplicate names, the duplicate-name merge
is the identity. -/
theorem c5_merge_identity_on_nodup (ps : List RawParam)
    (h : (ps.map (fun p => p.name)).Nodup) : mergeParams ps = ps := by
  unfold mergeParams
  have hfil : (groupByName ps).filter (fun g => g.length > 1) = [] := by
    rw [List.filter_eq_nil_iff]
    intro g hg
    unfold groupByName at hg
    obtain ⟨n, hn, rfl⟩ := List.mem_map.mp hg
    have hle := filter_name_le_one ps h n
    simp only [gt_iff_lt, decide_eq_true_eq, not_lt]
    omega
  rw [hfil]
  rfl

/-- Closed instance for C5: a two-parameter list with distinct names passes
through the merge unchanged. -/
theorem c5_merge_identity_on_nodup_witness :
    (([pLo, pHi].map (fun p => p.name)).Nodup) ∧ mergeParams [pLo, pHi] = [pLo, pHi] :=
  ⟨by decide, c5_merge_identity_on_nodup [pLo, pHi] (by decide)⟩

theorem combineGroup_name (g0 : RawParam) (gr : List RawParam) :
    (combineGroup (g0 :: gr)).name = g0.name := rfl

theorem mergeStep_cons_ne (g0 : RawParam) (gr : List RawParam) (p : RawParam)
    (rest : List RawParam) (hp : ¬(p.name = g0.name)) :
    mergeStep (p :: rest) (g0 :: gr) = p :: mergeStep rest (g0 :: gr) := by
  unfold mergeStep
  simp only [combineGroup_name, List.findIdx_cons, List.filter_cons,
    decide_eq_false hp, cond_false, decide_eq_true_eq, decide_not]
  simp [hp, List.take_succ_cons, List.drop_succ_cons]

theorem mergeStep_eq_replaceN (g0 : RawParam) (gr : List RawParam) :
    ∀ params : List RawParam, params.filter (fun p => p.name = g0.name) ≠ [] →
      mergeStep params (g0 :: gr) = replaceN g0.name (combineGroup (g0 :: gr)) params := by
  intro params
  induction params with
  | nil => intro h; exact absurd rfl h
  | cons p rest ih =>
    intro h
    by_cases hp : p.name = g0.name
    · unfold mergeStep replaceN
      simp only [combineGroup_name, List.findIdx_cons, List.filter_cons,
        decide_eq_true hp, cond_true, hp, if_true]
      simp [hp]
    · rw [mergeStep_cons_ne g0 gr p rest hp]
      rw [replaceN, if_neg hp]
      congr 1
      apply ih
      simpa [List.filter_cons, hp] using h

theorem filter_eqname_cons_pos (p : RawParam) (t : List RawParam) (m : String)
    (h : p.name = m) :
    (p :: t).filter (fun p => p.name = m) = p :: t.filter (fun p => p.name = m) := by
  simp [List.filter_cons, h]

theorem filter_eqname_cons_neg (p : RawParam) (t : List RawParam) (m : String)
    (h : ¬(p.name = m)) :
    (p :: t).filter (fun p => p.name = m) = t.filter (fun p => p.name = m) := by
  simp [List.filter_cons, h]

theorem filter_nename_cons_pos (p : RawParam) (t : List RawParam) (n : String)
    (h : ¬(p.name = n)) :
    (p :: t).filter (fun q => ¬(q.name = n)) = p :: t.filter (fun q => ¬(q.name = n)) := by
  simp [List.filter_cons, h]

theorem filter_nename_cons_neg (p : RawParam) (t : List RawParam) (n : String)
    (h : p.name = n) :
    (p :: t).filter (fun q => ¬(q.name = n)) = t.filter (fun q => ¬(q.name = n)) := by
  simp [List.filter_cons, h]

theorem filter_name_of_filter_not (rest : List RawParam) (n m : String) (hm : ¬ m = n) :
    (rest.filter (fun q => ¬(q.name = n))).filter (fun p => p.name = m) =
      rest.filter (fun p => p.name = m) := by
  induction rest with
  | nil => rfl
  | cons r t ih =>
    by_cases hr : r.name = n
    · have hrm : ¬(r.name = m) := fun hc => hm (hc ▸ hr.symm ▸ rfl)
      rw [filter_nename_cons_neg r t n hr, ih, filter_eqname_cons_neg r t m hrm]
    · by_cases hrm : r.name = m
      · rw [filter_nename_cons_pos r t n hr, filter_eqname_cons_pos _ _ m hrm, ih,
          filter_eqname_cons_pos r t m hrm]
      · rw [filter_nename_cons_pos r t n hr, filter_eqname_cons_neg _ _ m hrm, ih,
          filter_eqname_cons_neg r t m hrm]

theorem filter_name_of_filter_not_self (rest : List RawParam) (n : String) :
    (rest.filter (fun q => ¬(q.name = n))).filter (fun p => p.name = n) = [] := by
  induction rest with
  | nil => rfl
  | cons r t ih =>
    by_cases hr : r.name = n
    · rw [filter_nename_cons_neg r t n hr, ih]
    · rw [filter_nename_cons_pos r t n hr, filter_eqname_cons_neg _ _ n hr, ih]

theorem replaceN_filter_ne (n : String) (c : RawParam) (hc : c.name = n) (m : String)
    (hm : ¬ m = n) : ∀ l : List RawParam,
    (replaceN n c l).filter (fun p => p.name = m) = l.filter (fun p => p.name = m) := by
  intro l
  induction l with
  | nil => rfl
  | cons p rest ih =>
    by_cases hp : p.name = n
    · have hcm : ¬(c.name = m) := fun hcc => hm (hcc ▸ hc.symm ▸ rfl)
      have hpm : ¬(p.name = m) := fun hcc => hm (hcc ▸ hp.symm ▸ rfl)
      rw [replaceN, if_pos hp, filter_eqname_cons_neg c _ m hcm,
        filter_name_of_filter_not rest n m hm, filter_eqname_cons_neg p rest m hpm]
    · by_cases hpm : p.name = m
      · rw [replaceN, if_neg hp, filter_eqname_cons_pos _ _ m hpm, ih,
          filter_eqname_cons_pos p rest m hpm]
      · rw [replaceN, if_neg hp, filter_eqname_cons_neg _ _ m hpm, ih,
          filter_eqname_cons_neg p rest m hpm]

theorem replaceN_filter_self (n : String) (c : RawParam) (hc : c.name = n) :
    ∀ l : List RawParam, l.filter (fun p => p.name = n) ≠ [] →
    (replaceN n c l).filter (fun p => p.name = n) = [c] := by
  intro l
  induction l with
  | nil => intro h; exact absurd rfl h
  | cons p rest ih =>
    intro h
    by_cases hp : p.name = n
    · rw [replaceN, if_pos hp, filter_eqname_cons_pos c _ n hc,
        filter_name_of_filter_not_self rest n]
    · rw [replaceN, if_neg hp, filter_eqname_cons_neg _ _ n hp]
      apply ih
      rwa [filter_eqname_cons_neg p rest n hp] at h

theorem filter_head_name (ps : List RawParam) (n : String) (g0 : RawParam)
    (gr : List RawParam) (h : ps.filter (fun p => p.name = n) = g0 :: gr) :
    g0.name = n := by
  have hmem : g0 ∈ ps.filter (fun p => p.name = n) := h ▸ List.mem_cons_self g0 gr
  simpa using List.of_mem_filter hmem

theorem foldl_mergeStep_eq_applyAll (ps : List RawParam) :
    ∀ (ns : List String) (cur : List RawParam),
      ns.Nodup →
      (∀ n ∈ ns, cur.filter (fun p => p.name = n) ≠ []) →
      (∀ n ∈ ns, ps.filter (fun p => p.name = n) ≠ []) →
      (ns.map (fun n => ps.filter (fun p => p.name = n))).foldl mergeStep cur =
        applyAll ps ns cur := by
  intro ns
  induction ns with
  | nil => intro cur _ _ _; rfl
  | cons n ns' ih =>
    intro cur hnd hcur hps
    simp only [List.map_cons, List.foldl_cons, applyAll]
    obtain ⟨g0, gr, hg⟩ : ∃ g0 gr, ps.filter (fun p => p.name = n) = g0 :: gr := by
      cases hg : ps.filter (fun p => p.name = n) with
      | nil => exact absurd hg (hps n (List.mem_cons_self _ _))
      | cons a b => exact ⟨a, b, rfl⟩
    have hg0 : g0.name = n := filter_head_name ps n g0 gr hg
    have hcomb : (combineGroup (ps.filter (fun p => p.name = n))).name = n := by
      rw [hg, combineGroup_name, hg0]
    rw [hg, mergeStep_eq_replaceN g0 gr cur
      (by rw [hg0]; exact hcur n (List.mem_cons_self _ _)), hg0, ← hg]
    apply ih
    · exact (List.nodup_cons.mp hnd).2
    · intro m hm
      have hmn : ¬ m = n := fun hc => (List.nodup_cons.mp hnd).1 (hc ▸ hm)
      rw [replaceN_filter_ne n _ hcomb m hmn cur]
      exact hcur m (List.mem_cons_of_mem _ hm)
    · intro m hm
      exact hps m (List.mem_cons_of_mem _ hm)

theorem applyAll_filter_of_not_mem (ps : List RawParam) (n : String) :
    ∀ (ns : List String) (cur : List RawParam),
      (∀ m ∈ ns, ¬ m = n) →
      (∀ m ∈ ns, (combineGroup (ps.filter (fun p => p.name = m))).name = m) →
      (applyAll ps ns cur).filter (fun p => p.name = n) =
        cur.filter (fun p => p.name = n) := by
  intro ns
  induction ns with
  | nil => intro cur _ _; rfl
  | cons m ns' ih =>
    intro cur hne hcn
    simp only [applyAll]
    rw [ih _ (fun k hk => hne k (List.mem_cons_of_mem _ hk))
        (fun k hk => hcn k (List.mem_cons_of_mem _ hk))]
    exact replaceN_filter_ne m _ (hcn m (List.mem_cons_self _ _)) n
      (fun hc => hne m (List.mem_cons_self _ _) hc.symm) cur

theorem applyAll_filter_mem (ps : List RawParam) (n : String) :
    ∀ (ns : List String) (cur : List RawParam),
      ns.Nodup → n ∈ ns →
      (∀ m ∈ ns, (combineGroup (ps.filter (fun p => p.name = m))).name = m) →
      cur.filter (fun p => p.name = n) = ps.filter (fun p => p.name = n) →
      ps.filter (fun p => p.name = n) ≠ [] →
      (applyAll ps ns cur).filter (fun p => p.name = n) =
        [combineGroup (ps.filter (fun p => p.name = n))] := by
  intro ns
  induction ns with
  | nil => intro cur _ h; cases h
  | cons m ns' ih =>
    intro cur hnd hmem hcn hcf hne
    simp only [applyAll]
    by_cases hm : m = n
    · subst hm
      rw [applyAll_filter_of_not_mem ps m ns' _
          (fun k hk hc => (List.nodup_cons.mp hnd).1 (hc ▸ hk))
          (fun k hk => hcn k (List.mem_cons_of_mem _ hk)),
        replaceN_filter_self m _ (hcn m (List.mem_cons_self _ _)) cur
          (by rw [hcf]; exact hne)]
    · have hnm : n ∈ ns' := by
        cases List.mem_cons.mp hmem with
        | inl h => exact absurd h.symm hm
        | inr h => exact h
      apply ih _ (List.nodup_cons.mp hnd).2 hnm
        (fun k hk => hcn k (List.mem_cons_of_mem _ hk))
      · rw [replaceN_filter_ne m _ (hcn m (List.mem_cons_self _ _)) n
          (fun hc => hm hc.symm) cur]
        exact hcf
      · exact hne

theorem filter_strne_cons_pos (x : String) (t : List String) (n : String) (h : ¬ x = n) :
    (x :: t).filter (fun y => ¬(y = n)) = x :: t.filter (fun y => ¬(y = n)) := by
  simp [List.filter_cons, h]

theorem filter_strne_cons_neg (x : String) (t : List String) (n : String) (h : x = n) :
    (x :: t).filter (fun y => ¬(y = n)) = t.filter (fun y => ¬(y = n)) := by
  simp [List.filter_cons, h]

theorem filter_streq_cons_pos (x : String) (t : List String) (m : String) (h : x = m) :
    (x :: t).filter (fun y => y = m) = x :: t.filter (fun y => y = m) := by
  simp [List.filter_cons, h]

theorem filter_streq_cons_neg (x : String) (t : List String) (m : String) (h : ¬ x = m) :
    (x :: t).filter (fun y => y = m) = t.filter (fun y => y = m) := by
  simp [List.filter_cons, h]

theorem map_name_filter_not (rest : List RawParam) (n : String) :
    (rest.filter (fun q => ¬(q.name = n))).map (fun p => p.name) =
      (rest.map (fun p => p.name)).filter (fun y => ¬(y = n)) := by
  induction rest with
  | nil => rfl
  | cons r t ih =>
    by_cases hr : r.name = n
    · rw [filter_nename_cons_neg r t n hr, List.map_cons,
        filter_strne_cons_neg _ _ n hr, ih]
    · rw [filter_nename_cons_pos r t n hr, List.map_cons, List.map_cons,
        filter_strne_cons_pos _ _ n hr, ih]

theorem replaceN_map_name (n : String) (c : RawParam) (hc : c.name = n) :
    ∀ l : List RawParam,
    (replaceN n c l).map (fun p => p.name) = keepFirstOnly n (l.map (fun p => p.name)) := by
  intro l
  induction l with
  | nil => rfl
  | cons p rest ih =>
    by_cases hp : p.name = n
    · rw [replaceN, if_pos hp, List.map_cons, List.map_cons, map_name_filter_not,
        keepFirstOnly, if_pos hp, hc, hp]
    · rw [replaceN, if_neg hp, List.map_cons, List.map_cons, keepFirstOnly, if_neg hp, ih]

theorem applyAll_map_name (ps : List RawParam) :
    ∀ (ns : List String) (cur : List RawParam),
      (∀ m ∈ ns, (combineGroup (ps.filter (fun p => p.name = m))).name = m) →
      (applyAll ps ns cur).map (fun p => p.name) =
        foldKeep ns (cur.map (fun p => p.name)) := by
  intro ns
  induction ns with
  | nil => intro cur _; rfl
  | cons m ns' ih =>
    intro cur hcn
    simp only [applyAll, foldKeep]
    rw [ih _ (fun k hk => hcn k (List.mem_cons_of_mem _ hk)),
      replaceN_map_name m _ (hcn m (List.mem_cons_self _ _)) cur]

theorem filter_str_of_filter_not (t : List String) (m μ : String) (hm : ¬ μ = m) :
    (t.filter (fun y => ¬(y = m))).filter (fun y => y = μ) = t.filter (fun y => y = μ) := by
  induction t with
  | nil => rfl
  | cons x s ih =>
    by_cases hx : x = m
    · have hxm : ¬(x = μ) := fun hc => hm (hc ▸ hx.symm ▸ rfl)
      rw [filter_strne_cons_neg x s m hx, ih, filter_streq_cons_neg x s μ hxm]
    · by_cases hxe : x = μ
      · rw [filter_strne_cons_pos x s m hx, filter_streq_cons_pos _ _ μ hxe, ih,
          filter_streq_cons_pos x s μ hxe]
      · rw [filter_strne_cons_pos x s m hx, filter_streq_cons_neg _ _ μ hxe, ih,
          filter_streq_cons_neg x s μ hxe]

theorem filter_str_of_filter_not_self (t : List String) (m : String) :
    (t.filter (fun y => ¬(y = m))).filter (fun y => y = m) = [] := by
  induction t with
  | nil => rfl
  | cons x s ih =>
    by_cases hx : x = m
    · rw [filter_strne_cons_neg x s m hx, ih]
    · rw [filter_strne_cons_pos x s m hx, filter_streq_cons_neg _ _ m hx, ih]

theorem keepFirstOnly_filter_ne (m μ : String) (hms : ¬ μ = m) : ∀ l : List String,
    (keepFirstOnly m l).filter (fun y => y = μ) = l.filter (fun y => y = μ) := by
  intro l
  induction l with
  | nil => rfl
  | cons x s ih =>
    by_cases hx : x = m
    · have hxm : ¬(x = μ) := fun hc => hms (hc ▸ hx.symm ▸ rfl)
      rw [keepFirstOnly, if_pos hx, filter_streq_cons_neg _ _ μ hxm,
        filter_str_of_filter_not s m μ hms, filter_streq_cons_neg x s μ hxm]
    · by_cases hxe : x = μ
      · rw [keepFirstOnly, if_neg hx, filter_streq_cons_pos _ _ μ hxe, ih,
          filter_streq_cons_pos x s μ hxe]
      · rw [keepFirstOnly, if_neg hx, filter_streq_cons_neg _ _ μ hxe, ih,
          filter_streq_cons_neg x s μ hxe]

theorem keepFirstOnly_filter_self_le_one (m : String) : ∀ l : List String,
    ((keepFirstOnly m l).filter (fun y => y = m)).length ≤ 1 := by
  intro l
  induction l with
  | nil => exact Nat.zero_le 1
  | cons x s ih =>
    by_cases hx : x = m
    · rw [keepFirstOnly, if_pos hx, filter_streq_cons_pos _ _ m hx,
        filter_str_of_filter_not_self s m]
      exact Nat.le_refl 1
    · rw [keepFirstOnly, if_neg hx, filter_streq_cons_neg _ _ m hx]
      exact ih

theorem dedupFirstAux_filter_seen (m : String) : ∀ (xs seen : List String),
    seen.contains m = true →
    dedupFirstAux (xs.filter (fun y => ¬(y = m))) seen = dedupFirstAux xs seen := by
  intro xs
  induction xs with
  | nil => intro seen _; rfl
  | cons x s ih =>
    intro seen hm
    by_cases hx : x = m
    · rw [filter_strne_cons_neg x s m hx, ih seen hm, dedupFirstAux,
        if_pos (by rw [hx]; exact hm)]
    · rw [filter_strne_cons_pos x s m hx, dedupFirstAux, dedupFirstAux]
      by_cases hc : seen.contains x = true
      · rw [if_pos hc, if_pos hc, ih seen hm]
      · rw [if_neg hc, if_neg hc, ih (x :: seen) (by rw [List.contains_cons, hm, Bool.or_true])]

theorem dedupFirstAux_keepFirstOnly (m : String) : ∀ (xs seen : List String),
    dedupFirstAux (keepFirstOnly m xs) seen = dedupFirstAux xs seen := by
  intro xs
  induction xs with
  | nil => intro seen; rfl
  | cons x s ih =>
    intro seen
    by_cases hx : x = m
    · rw [keepFirstOnly, if_pos hx, dedupFirstAux, dedupFirstAux]
      by_cases hc : seen.contains x = true
      · rw [if_pos hc, if_pos hc, dedupFirstAux_filter_seen m s seen (hx ▸ hc)]
      · rw [if_neg hc, if_neg hc,
          dedupFirstAux_filter_seen m s (x :: seen) (by rw [List.contains_cons, hx, beq_self_eq_true, Bool.true_or])]
    · rw [keepFirstOnly, if_neg hx, dedupFirstAux, dedupFirstAux]
      by_cases hc : seen.contains x = true
      · rw [if_pos hc, if_pos hc, ih seen]
      · rw [if_neg hc, if_neg hc, ih (x :: seen)]

theorem dedupFirstAux_nodup_avoid : ∀ (l seen : List String),
    (dedupFirstAux l seen).Nodup ∧ ∀ x ∈ dedupFirstAux l seen, seen.contains x = false := by
  intro l
  induction l with
  | nil => intro seen; exact ⟨List.nodup_nil, fun x hx => absurd hx (List.not_mem_nil x)⟩
  | cons y t ih =>
    intro seen
    rw [dedupFirstAux]
    by_cases hc : seen.contains y = true
    · rw [if_pos hc]
      exact ih seen
    · rw [if_neg hc]
      obtain ⟨hnd, havoid⟩ := ih (y :: seen)
      have hy : y ∉ dedupFirstAux t (y :: seen) := fun hmem => by
        have := havoid y hmem
        rw [List.contains_cons, beq_self_eq_true, Bool.true_or] at this
        exact absurd this (by decide)
      refine ⟨List.nodup_cons.mpr ⟨hy, hnd⟩, fun x hx => ?_⟩
      cases List.mem_cons.mp hx with
      | inl h =>
        subst h
        simpa using hc
      | inr h =>
        have := havoid x h
        rw [List.contains_cons] at this
        exact (Bool.or_eq_false_iff.mp this).2

theorem mem_dedupFirstAux : ∀ (l seen : List String) (x : String), x ∈ l →
    seen.contains x = false → x ∈ dedupFirstAux l seen := by
  intro l
  induction l with
  | nil => intro seen x hx _; exact absurd hx (List.not_mem_nil x)
  | cons y t ih =>
    intro seen x hx hcx
    rw [dedupFirstAux]
    by_cases hc : seen.contains y = true
    · rw [if_pos hc]
      cases List.mem_cons.mp hx with
      | inl h =>
        subst h
        rw [hcx] at hc
        exact absurd hc (by simp)
      | inr h => exact ih seen x h hcx
    · rw [if_neg hc]
      cases List.mem_cons.mp hx with
      | inl h => exact h ▸ List.mem_cons_self y _
      | inr h =>
        by_cases hxy : x = y
        · exact hxy ▸ List.mem_cons_self y _
        · refine List.mem_cons_of_mem y (ih (y :: seen) x h ?_)
          rw [List.contains_cons, hcx, Bool.or_false, beq_eq_false_iff_ne]
          exact hxy

theorem nodup_str_of_filter_le_one : ∀ l : List String,
    (∀ m, (l.filter (fun y => y = m)).length ≤ 1) → l.Nodup := by
  intro l
  induction l with
  | nil => intro _; exact List.nodup_nil
  | cons x t ih =>
    intro h
    refine List.nodup_cons.mpr ⟨?_, ih (fun m => ?_)⟩
    · intro hmem
      have hx := h x
      rw [filter_streq_cons_pos x t x rfl] at hx
      have : t.filter (fun y => y = x) ≠ [] := by
        intro hnil
        have hmm : x ∈ t.filter (fun y => y = x) :=
          List.mem_filter.mpr ⟨hmem, decide_eq_true rfl⟩
        rw [hnil] at hmm
        exact List.not_mem_nil x hmm
      cases hf : t.filter (fun y => y = x) with
      | nil => exact this hf
      | cons a b =>
        rw [hf] at hx
        simp at hx
    · have hm := h m
      by_cases hx : x = m
      · rw [filter_streq_cons_pos x t m hx] at hm
        simp only [List.length_cons] at hm
        omega
      · rwa [filter_streq_cons_neg x t m hx] at hm

theorem dedupFirstAux_eq_self : ∀ (l seen : List String), l.Nodup →
    (∀ x ∈ l, seen.contains x = false) → dedupFirstAux l seen = l := by
  intro l
  induction l with
  | nil => intro seen _ _; rfl
  | cons x t ih =>
    intro seen hnd havoid
    rw [dedupFirstAux, if_neg (by rw [havoid x (List.mem_cons_self x t)]; simp)]
    congr 1
    refine ih (x :: seen) (List.nodup_cons.mp hnd).2 ?_
    intro y hy
    have h1 : seen.contains y = false := havoid y (List.mem_cons_of_mem x hy)
    have h2 : ¬ y = x := fun hc => (List.nodup_cons.mp hnd).1 (hc ▸ hy)
    rw [List.contains_cons, h1, beq_eq_false_iff_ne.mpr h2, Bool.or_false]

theorem foldKeep_eq_dedupFirst : ∀ (ns names : List String),
    (∀ m, 2 ≤ (names.filter (fun y => y = m)).length → m ∈ ns) →
    foldKeep ns names = dedupFirstAux names [] := by
  intro ns
  induction ns with
  | nil =>
    intro names h
    have hnd : names.Nodup := nodup_str_of_filter_le_one names (fun m => by
      by_contra hlt
      push_neg at hlt
      exact absurd (h m (by omega)) (List.not_mem_nil m))
    rw [foldKeep, dedupFirstAux_eq_self names [] hnd (fun x _ => rfl)]
  | cons m ns' ih =>
    intro names h
    have hsub : ∀ μ, 2 ≤ ((keepFirstOnly m names).filter (fun y => y = μ)).length → μ ∈ ns' := by
      intro μ hμ
      by_cases hμm : μ = m
      · exfalso
        have hle := keepFirstOnly_filter_self_le_one m names
        rw [hμm] at hμ
        omega
      · rw [keepFirstOnly_filter_ne m μ hμm names] at hμ
        cases List.mem_cons.mp (h μ hμ) with
        | inl hh => exact absurd hh hμm
        | inr hh => exact hh
    rw [foldKeep, ih (keepFirstOnly m names) hsub, dedupFirstAux_keepFirstOnly m names []]

theorem groupFilter_eq_map_dupNames (ps : List RawParam) :
    (groupByName ps).filter (fun g => g.length > 1) =
      (dupNamesOf ps).map (fun n => ps.filter (fun p => p.name = n)) := by
  unfold groupByName dupNamesOf
  rw [List.filter_map]
  rfl

theorem length_filter_name (ps : List RawParam) (m : String) :
    ((ps.map (fun p => p.name)).filter (fun y => y = m)).length =
      (ps.filter (fun p => p.name = m)).length := by
  induction ps with
  | nil => rfl
  | cons p t ih =>
    by_cases hp : p.name = m
    · rw [List.map_cons, filter_streq_cons_pos _ _ m hp, filter_eqname_cons_pos p t m hp,
        List.length_cons, List.length_cons, ih]
    · rw [List.map_cons, filter_streq_cons_neg _ _ m hp, filter_eqname_cons_neg p t m hp, ih]

theorem mem_dupNamesOf (ps : List RawParam) (n : String)
    (h : 2 ≤ (ps.filter (fun p => p.name = n)).length) : n ∈ dupNamesOf ps := by
  have hne : ps.filter (fun p => p.name = n) ≠ [] := by
    intro hnil
    rw [hnil] at h
    simp at h
  obtain ⟨g0, gr, hg⟩ : ∃ g0 gr, ps.filter (fun p => p.name = n) = g0 :: gr := by
    cases hg : ps.filter (fun p => p.name = n) with
    | nil => exact absurd hg hne
    | cons a b => exact ⟨a, b, rfl⟩
  have hg0mem : g0 ∈ ps := List.mem_of_mem_filter (hg ▸ List.mem_cons_self g0 gr)
  have hg0 : g0.name = n := filter_head_name ps n g0 gr hg
  have hnames : n ∈ ps.map (fun p => p.name) := hg0 ▸ List.mem_map_of_mem _ hg0mem
  refine List.mem_filter.mpr ⟨mem_dedupFirstAux _ [] n hnames rfl, ?_⟩
  simp only [gt_iff_lt, decide_eq_true_eq]
  omega

theorem dupNamesOf_spec (ps : List RawParam) (n : String) (h : n ∈ dupNamesOf ps) :
    2 ≤ (ps.filter (fun p => p.name = n)).length := by
  have := (List.mem_filter.mp h).2
  simp only [gt_iff_lt, decide_eq_true_eq] at this
  omega

theorem combineGroup_filter_name (ps : List RawParam) (n : String)
    (h : ps.filter (fun p => p.name = n) ≠ []) :
    (combineGroup (ps.filter (fun p => p.name = n))).name = n := by
  obtain ⟨g0, gr, hg⟩ : ∃ g0 gr, ps.filter (fun p => p.name = n) = g0 :: gr := by
    cases hg : ps.filter (fun p => p.name = n) with
    | nil => exact absurd hg h
    | cons a b => exact ⟨a, b, rfl⟩
  rw [hg, combineGroup_name, filter_head_name ps n g0 gr hg]

theorem filter_ne_nil_of_two_le (ps : List RawParam) (n : String)
    (h : 2 ≤ (ps.filter (fun p => p.name = n)).length) :
    ps.filter (fun p => p.name = n) ≠ [] := by
  intro hnil
  rw [hnil] at h
  simp at h

theorem mergeParams_eq_applyAll (ps : List RawParam) :
    mergeParams ps = applyAll ps (dupNamesOf ps) ps := by
  unfold mergeParams
  rw [groupFilter_eq_map_dupNames]
  apply foldl_mergeStep_eq_applyAll
  · exact List.Nodup.filter _ (dedupFirstAux_nodup_avoid (ps.map (fun p => p.name)) []).1
  · intro n hn
    exact filter_ne_nil_of_two_le ps n (dupNamesOf_spec ps n hn)
  · intro n hn
    exact filter_ne_nil_of_two_le ps n (dupNamesOf_spec ps n hn)

theorem findIdx_name_map (n : String) : ∀ l : List RawParam,
    l.findIdx (fun p => p.name = n) = (l.map (fun p => p.name)).findIdx (fun y => y = n) := by
  intro l
  induction l with
  | nil => rfl
  | cons p t ih =>
    rw [List.map_cons, List.findIdx_cons, List.findIdx_cons, ih]

/-- C4 (amended): a duplicate-name group is replaced by exactly one synthetic
'arg-series' parameter with the indexed-label description concatenation, the
OR of the required flags, the first member's warning, and the list of member
defaults when at least one member's default is truthy (not when one is merely
present); the merged parameter sits at the first occurrence's position in the
first-occurrence name order, and no two parameters share a name afterwards. -/
theorem c4_merged_series_amended (ps : List RawParam) (n : String)
    (h2 : 2 ≤ (ps.filter (fun p => p.name = n)).length) :
    ((mergeParams ps).filter (fun p => p.name = n) =
        [combineGroup (ps.filter (fun p => p.name = n))]) ∧
    (combineGroup (ps.filter (fun p => p.name = n))).type = "arg-series" ∧
    (combineGroup (ps.filter (fun p => p.name = n))).description =
      joinSep "\n\n" ((ps.filter (fun p => p.name = n)).enum.map
        (fun ip => n ++ toString ip.1 ++ ": " ++ ip.2.description)) ∧
    (combineGroup (ps.filter (fun p => p.name = n))).required =
      (ps.filter (fun p => p.name = n)).any (fun p => p.required) ∧
    (combineGroup (ps.filter (fun p => p.name = n))).warning =
      ((ps.filter (fun p => p.name = n)).map (fun p => p.warning)).headD none ∧
    (combineGroup (ps.filter (fun p => p.name = n))).defaultValue =
      (if (ps.filter (fun p => p.name = n)).any (fun p => jsTruthyOpt p.defaultValue)
       then some (.list ((ps.filter (fun p => p.name = n)).map (fun p => jsOfOpt p.defaultValue)))
       else none) ∧
    ((mergeParams ps).map (fun p => p.name) =
      dedupFirstAux (ps.map (fun p => p.name)) []) ∧
    ((mergeParams ps).findIdx (fun p => p.name = n) =
      (dedupFirstAux (ps.map (fun p => p.name)) []).findIdx (fun y => y = n)) ∧
    ((mergeParams ps).map (fun p => p.name)).Nodup := by
  have hne : ps.filter (fun p => p.name = n) ≠ [] := filter_ne_nil_of_two_le ps n h2
  obtain ⟨g0, gr, hg⟩ : ∃ g0 gr, ps.filter (fun p => p.name = n) = g0 :: gr := by
    cases hg : ps.filter (fun p => p.name = n) with
    | nil => exact absurd hg hne
    | cons a b => exact ⟨a, b, rfl⟩
  have hg0 : g0.name = n := filter_head_name ps n g0 gr hg
  have hnd : (dupNamesOf ps).Nodup :=
    List.Nodup.filter _ (dedupFirstAux_nodup_avoid (ps.map (fun p => p.name)) []).1
  have hcn : ∀ m ∈ dupNamesOf ps,
      (combineGroup (ps.filter (fun p => p.name = m))).name = m := fun m hm =>
    combineGroup_filter_name ps m (filter_ne_nil_of_two_le ps m (dupNamesOf_spec ps m hm))
  have hdup : ∀ m, 2 ≤ ((ps.map (fun p => p.name)).filter (fun y => y = m)).length →
      m ∈ dupNamesOf ps := fun m hm =>
    mem_dupNamesOf ps m (by rwa [length_filter_name ps m] at hm)
  have hnames : (mergeParams ps).map (fun p => p.name) =
      dedupFirstAux (ps.map (fun p => p.name)) [] := by
    rw [mergeParams_eq_applyAll, applyAll_map_name ps (dupNamesOf ps) ps hcn,
      foldKeep_eq_dedupFirst (dupNamesOf ps) (ps.map (fun p => p.name)) hdup]
  refine ⟨?_, ?_, ?_, ?_, ?_, ?_, hnames, ?_, ?_⟩
  · rw [mergeParams_eq_applyAll]
    exact applyAll_filter_mem ps n (dupNamesOf ps) ps hnd (mem_dupNamesOf ps n h2) hcn rfl hne
  · rw [hg]; rfl
  · rw [hg]
    simp only [combineGroup, hg0]
  · rw [hg]; rfl
  · rw [hg]; rfl
  · rw [hg]; rfl
  · rw [findIdx_name_map, hnames]
  · rw [hnames]
    exact (dedupFirstAux_nodup_avoid (ps.map (fun p => p.name)) []).1

/-- Closed instance for C4: a three-parameter list with one duplicate pair
(one truthy default) satisfies the amended merge description. -/
theorem c4_merged_series_amended_witness :
    (2 ≤ ([pLo, pSer1, pSer2].filter (fun p => p.name = "arg")).length) ∧
    ((mergeParams [pLo, pSer1, pSer2]).filter (fun p => p.name = "arg") =
      [combineGroup ([pLo, pSer1, pSer2].filter (fun p => p.name = "arg"))]) ∧
    ((mergeParams [pLo, pSer1, pSer2]).map (fun p => p.name) =
      dedupFirstAux ([pLo, pSer1, pSer2].map (fun p => p.name)) []) ∧
    ((mergeParams [pLo, pSer1, pSer2]).map (fun p => p.name)).Nodup :=
  ⟨by decide,
   (c4_merged_series_amended [pLo, pSer1, pSer2] "arg" (by decide)).1,
   (c4_merged_series_amended [pLo, pSer1, pSer2] "arg" (by decide)).2.2.2.2.2.2.1,
   (c4_merged_series_amended [pLo, pSer1, pSer2] "arg" (by decide)).2.2.2.2.2.2.2.2⟩

theorem isHeader_other_text (node : MdNode) (lvl : Nat) (t1 t2 : String)
    (h : isHeader node lvl (fun v => v == t1) = true) (hne : ¬(t1 = t2)) :
    isHeader node lvl (fun v => v == t2) = false := by
  cases node with
  | heading depth children =>
    cases children with
    | nil => simp [isHeader] at h
    | cons c rest =>
      cases c with
      | text v =>
        simp only [isHeader, Bool.and_eq_true, beq_iff_eq] at h
        obtain ⟨hd, hv⟩ := h
        subst hv
        simp [isHeader, beq_eq_false_iff_ne.mpr hne]
      | heading d2 c2 => simp [isHeader] at h
      | paragraph c2 => simp [isHeader] at h
      | inlineCode v => simp [isHeader] at h
      | strong c2 => simp [isHeader] at h
      | code v => simp [isHeader] at h
      | list c2 => simp [isHeader] at h
      | listItem c2 => simp [isHeader] at h
      | thematicBreak => simp [isHeader] at h
  | paragraph children => simp [isHeader] at h
  | text v => simp [isHeader] at h
  | inlineCode v => simp [isHeader] at h
  | strong children => simp [isHeader] at h
  | code v => simp [isHeader] at h
  | list children => simp [isHeader] at h
  | listItem children => simp [isHeader] at h
  | thematicBreak => simp [isHeader] at h

theorem isParagraph_not_header (x : MdNode) (hp : isParagraph x = true) (lvl : Nat)
    (test : String → Bool) : isHeader x lvl test = false := by
  cases x with
  | paragraph cs => rfl
  | heading depth cs => simp [isParagraph] at hp
  | text v => simp [isParagraph] at hp
  | inlineCode v => simp [isParagraph] at hp
  | strong cs => simp [isParagraph] at hp
  | code v => simp [isParagraph] at hp
  | list cs => simp [isParagraph] at hp
  | listItem cs => simp [isParagraph] at hp
  | thematicBreak => simp [isParagraph] at hp

theorem parseIntroNodes_ok_paragraphs (raw : List MdNode → String) (ep : String)
    (l : List MdNode) (dw : String × Option Warning)
    (h : parseIntroNodes raw ep l = .ok dw) : ∀ x ∈ l, isParagraph x = true := by
  intro x hx
  by_contra hpx
  have hany : l.any (fun n => ¬(isParagraph n = true)) = true :=
    List.any_eq_true.mpr ⟨x, hx, by simp [hpx]⟩
  unfold parseIntroNodes at h
  rw [if_pos hany] at h
  exact Except.noConfusion h

theorem prefix_no_header (nodes : List MdNode) (a : Nat) (t1 : String)
    (hA : findIdxHeader nodes 3 t1 = some a)
    (hpar : ∀ x ∈ nodes.take a, isParagraph x = true)
    (t2 : String) (hne : ¬(t1 = t2)) :
    ∀ x ∈ nodes.take (a + 1), isHeader x 3 (fun v => v == t2) = false := by
  unfold findIdxHeader at hA
  obtain ⟨hlt, hgt, hprev⟩ := List.findIdx?_eq_some_iff_getElem.mp hA
  intro x hx
  rw [List.take_succ, List.getElem?_eq_getElem hlt] at hx
  cases List.mem_append.mp hx with
  | inl hmem => exact isParagraph_not_header x (hpar x hmem) 3 _
  | inr hmem =>
    have hxa : x = nodes[a] := by simpa using hmem
    subst hxa
    exact isHeader_other_text _ 3 t1 t2 hgt hne

theorem global_find_shift (nodes : List MdNode) (a : Nat) (p : MdNode → Bool)
    (hpre : ∀ x ∈ nodes.take (a + 1), p x = false) (ha1 : a + 1 ≤ nodes.length) (i : Nat)
    (h : nodes.findIdx? p = some i) :
    ∃ j, (nodes.drop (a + 1)).findIdx? p = some j ∧ i = (a + 1) + j := by
  conv at h => rw [← List.take_append_drop (a + 1) nodes]
  rw [List.findIdx?_append, List.findIdx?_eq_none_iff.mpr hpre, Option.none_or] at h
  obtain ⟨j, hj, hij⟩ := Option.map_eq_some'.mp h
  refine ⟨j, hj, ?_⟩
  rw [← hij, List.length_take]
  omega

theorem find_combined_le (l : List MdNode) (p q : MdNode → Bool) (i k : Nat)
    (hp : l.findIdx? p = some i)
    (hq : l.findIdx? (fun x => p x || q x) = some k) : k ≤ i := by
  obtain ⟨j, hji, hj⟩ := List.findIdx?_eq_some_le_of_findIdx?_eq_some
    (p := p) (q := fun x => p x || q x) (fun x _ hx => by simp [hx]) hp
  rw [hq] at hj
  cases hj
  exact hji

theorem find_combined_le_right (l : List MdNode) (p q : MdNode → Bool) (i k : Nat)
    (hp : l.findIdx? q = some i)
    (hq : l.findIdx? (fun x => p x || q x) = some k) : k ≤ i := by
  obtain ⟨j, hji, hj⟩ := List.findIdx?_eq_some_le_of_findIdx?_eq_some
    (p := q) (q := fun x => p x || q x) (fun x _ hx => by simp [hx]) hp
  rw [hq] at hj
  cases hj
  exact hji

/-- C6: an endpoint slice with no level-3 Response heading, or with more than
one node between the Arguments heading and the next section boundary (the
first Request Body or Response heading after it), makes the extractor raise an
error, so the endpoint contributes no record. -/
theorem c6_fatal_on_deviation (raw : List MdNode → String)
    (jsonParse : String → Option JsValue) (ep : String) (nodes : List MdNode)
    (h : findIdxHeader nodes 3 "Response" = none ∨
      (∃ a k, findIdxHeader nodes 3 "Arguments" = some a ∧
        (nodes.drop (a + 1)).findIdx? (fun node =>
          isHeader node 3 (fun v => v == "Request Body") ||
          isHeader node 3 (fun v => v == "Response")) = some k ∧ 1 < k)) :
    (endpointDataFn raw jsonParse ep nodes).isOk = false := by
  cases hA : findIdxHeader nodes 3 "Arguments" with
  | none => simp [endpointDataFn, hA, Except.isOk, Except.toBool]
  | some a =>
    cases hI : parseIntroNodes raw ep (nodes.take a) with
    | error e => simp [endpointDataFn, hA, hI, Except.isOk, Except.toBool]
    | ok dw =>
      cases hR : findIdxHeader nodes 3 "Response" with
      | none => simp [endpointDataFn, hA, hI, hR, Except.isOk, Except.toBool]
      | some r =>
        rcases h with h1 | ⟨a', k, hA', hk, hk1⟩
        · rw [hR] at h1
          exact Option.noConfusion h1
        · rw [hA] at hA'
          obtain rfl : a = a' := Option.some.inj hA'
          have hpar : ∀ x ∈ nodes.take a, isParagraph x = true :=
            parseIntroNodes_ok_paragraphs raw ep _ dw hI
          have ha1 : a + 1 ≤ nodes.length := by
            have hA2 := hA
            unfold findIdxHeader at hA2
            obtain ⟨hlt, _, _⟩ := List.findIdx?_eq_some_iff_getElem.mp hA2
            omega
          have hpreRB : ∀ x ∈ nodes.take (a + 1),
              isHeader x 3 (fun v => v == "Request Body") = false :=
            prefix_no_header nodes a "Arguments" hA hpar "Request Body" (by decide)
          have hpreR : ∀ x ∈ nodes.take (a + 1),
              isHeader x 3 (fun v => v == "Response") = false :=
            prefix_no_header nodes a "Arguments" hA hpar "Response" (by decide)
          have hR2 := hR
          unfold findIdxHeader at hR2
          obtain ⟨jr, hjr, hrij⟩ := global_find_shift nodes a _ hpreR ha1 r hR2
          have hkjr : k ≤ jr := find_combined_le_right _ _ _ jr k hjr hk
          cases hRB : findIdxHeader nodes 3 "Request Body" with
          | none =>
            have hcond : ((r : Int) - (a : Int) - 1 > 1) := by omega
            simp only [endpointDataFn, hA, hI, hRB, hR, Option.getD_none, if_pos hcond]
            rfl
          | some rb =>
            have hRB2 := hRB
            unfold findIdxHeader at hRB2
            obtain ⟨jb, hjb, hbij⟩ := global_find_shift nodes a _ hpreRB ha1 rb hRB2
            have hkjb : k ≤ jb := find_combined_le _ _ _ jb k hjb hk
            have hcond : ((rb : Int) - (a : Int) - 1 > 1) := by omega
            simp only [endpointDataFn, hA, hI, hRB, hR, Option.getD_some, if_pos hcond]
            rfl

/-- Closed instance for C6: a slice whose Arguments region holds two nodes
before the Response heading is rejected by the extractor. -/
theorem c6_fatal_on_deviation_witness :
    (findIdxHeader c6Nodes 3 "Arguments" = some 0 ∧
     (c6Nodes.drop (0 + 1)).findIdx? (fun node =>
        isHeader node 3 (fun v => v == "Request Body") ||
        isHeader node 3 (fun v => v == "Response")) = some 2 ∧ (1 : Nat) < 2) ∧
    (endpointDataFn (fun _ => "") (fun _ => none) "/api/v0/x" c6Nodes).isOk = false :=
  ⟨⟨rfl, rfl, by decide⟩,
   c6_fatal_on_deviation (fun _ => "") (fun _ => none) "/api/v0/x" c6Nodes
     (Or.inr ⟨0, 2, rfl, rfl, by decide⟩)⟩
